import Mathlib

/-!
Verification development for the xzatoma documentation-integrity checkers.

Text is modelled as lists of characters; a file line carries no trailing
newline, matching the per-line view after splitting on newlines.  Python
string operations used by the scripts (strip, startswith, split, lower,
isupper, os.path.join, os.path.normpath, os.path.splitext, os.path.dirname,
pathlib suffix) are translated one by one below.  Unicode-sensitive Python
predicates (isupper, lower) are modelled on their ASCII behaviour, which is
the range the naming policy and the claims exercise.
-/

abbrev Line := List Char

/-- Membership of a character in the Python whitespace class used by
str.strip and by the regex class backslash-s. -/
def isPySpace (c : Char) : Bool :=
  c = ' ' || c = '\t' || c = '\n' || c = '\r' || c = '\x0b' || c = '\x0c'

/-- Python str.strip with no argument: remove whitespace from both ends. -/
def pyStrip (l : Line) : Line :=
  ((l.dropWhile isPySpace).reverse.dropWhile isPySpace).reverse

/-- Characters that may form a code fence, the regex class of backtick and
tilde in code_fence_check.py. -/
def isFenceChar (c : Char) : Bool :=
  c = '`' || c = '~'

/-- The fence regex of code_fence_check.py line 46: optional leading
whitespace, then three or more characters drawn from the fence class, then
the rest of the line.  Returns the fence run (group 1) and the rest
(group 2) on a match. -/
def fenceMatch (line : Line) : Option (Line × Line) :=
  let afterWs := line.dropWhile isPySpace
  let seq := afterWs.takeWhile isFenceChar
  if 3 ≤ seq.length then some (seq, afterWs.drop seq.length) else none

/-- Per-file mutable scan state of find_missing_language_tags
(code_fence_check.py lines 73 to 76).  The Python empty-string sentinel for
block_fence_char is modelled as none. -/
structure FenceScanState where
  in_block : Bool
  block_fence_char : Option Char
  block_open_line : Nat
deriving DecidableEq, Repr

/-- Violation payloads recorded by find_missing_language_tags: the text of
an untagged opening fence line, the unclosed-block message carrying the
opening line number, and the sentinel for a file that does not decode. -/
inductive FenceMsg where
  | lineText (line : Line)
  | unclosed (openLine : Nat)
  | binaryFile
deriving DecidableEq, Repr

def initFenceState : FenceScanState :=
  { in_block := false, block_fence_char := none, block_open_line := 0 }

/-- One iteration of the scanning loop of find_missing_language_tags
(code_fence_check.py lines 78 to 107): returns the updated state and the
violations recorded for this line. -/
def fenceStep (st : FenceScanState) (lineno : Nat) (line : Line) :
    FenceScanState × List (Nat × FenceMsg) :=
  match fenceMatch line with
  | none => (st, [])
  | some (seq, rest) =>
    if st.in_block = false then
      ({ in_block := true, block_fence_char := seq.head?, block_open_line := lineno },
        if pyStrip rest = [] then [(lineno, FenceMsg.lineText line)] else [])
    else
      if seq.head? = st.block_fence_char then
        ({ in_block := false, block_fence_char := none, block_open_line := 0 }, [])
      else
        (st, [])

/-- The scanning loop over the lines of one file, threading the state and
the one-based line number. -/
def scanLines : FenceScanState → Nat → List Line → FenceScanState × List (Nat × FenceMsg)
  | st, _, [] => (st, [])
  | st, n, l :: ls =>
    let out := fenceStep st n l
    let out2 := scanLines out.1 (n + 1) ls
    (out2.1, out.2 ++ out2.2)

/-- The scan of one decoded file by find_missing_language_tags, including
the end-of-file check for an unclosed block (code_fence_check.py
lines 108 to 112). -/
def scanFileFences (lines : List Line) : List (Nat × FenceMsg) :=
  let out := scanLines initFenceState 1 lines
  if out.1.in_block then
    out.2 ++ [(out.1.block_open_line, FenceMsg.unclosed out.1.block_open_line)]
  else
    out.2

/-- Decoded view of one file's content: the lines that decoded
successfully, in order, and whether decoding then raised an error before
the end of the file.  The source decodes lazily while iterating
(code_fence_check.py line 78), so an invalid byte surfaces mid-iteration:
the lines yielded before it have already been scanned, the rest of the
loop and the end-of-file check are skipped, and the handler appends the
sentinel to whatever was already recorded for the file. -/
structure FileText where
  lines : List Line
  decode_error : Bool
deriving DecidableEq, Repr

/-- The violations recorded for one file by find_missing_language_tags: on
a clean decode, the full scan including the end-of-file check; on a decode
error, the loop violations of the decoded prefix followed by the sentinel
appended by the except handler (code_fence_check.py lines 113 to 114),
with the end-of-file unclosed check skipped because the exception leaves
the try block before line 109. -/
def fenceFileViolations (content : FileText) : List (Nat × FenceMsg) :=
  if content.decode_error then
    (scanLines initFenceState 1 content.lines).2 ++ [(0, FenceMsg.binaryFile)]
  else
    scanFileFences content.lines

/-- find_missing_language_tags over the files selected by the walk, each
given with its path and its decoded view.  A path is keyed in the result
exactly when a violation was recorded for it, mirroring the
setdefault-append accumulation. -/
def find_missing_language_tags (files : List (Line × FileText)) :
    List (Line × List (Nat × FenceMsg)) :=
  files.filterMap fun f =>
    let vs := fenceFileViolations f.2
    if vs = [] then none else some (f.1, vs)

/-! Link-target resolution, from doc_link_check.py.  Filesystem probes
(os.path.isdir inside the resolver, os.path.exists in the caller) are
injected as boolean predicates on paths, as the existence decision is the
caller's job. -/

/-- Python str.split on one character, keeping empty pieces, as used by
os.path.normpath. -/
def splitOnChar (c : Char) : Line → List Line
  | [] => [[]]
  | x :: xs =>
    let r := splitOnChar c xs
    if x = c then [] :: r
    else
      match r with
      | [] => [[x]]
      | h :: t => (x :: h) :: t

/-- Joining path components with the separator, the join of
os.path.normpath. -/
def joinSlash : List Line → Line
  | [] => []
  | [c] => c
  | c :: c2 :: rest => c ++ '/' :: joinSlash (c2 :: rest)

/-- posixpath.normpath: collapse separators, drop single dots, resolve
double dots where possible, preserving the special two-slash root. -/
def normpath (p : Line) : Line :=
  if p = [] then ".".data
  else
    let initial_slashes : Nat :=
      if p.head? = some '/' then
        if "//".data.isPrefixOf p ∧ ¬ "///".data.isPrefixOf p then 2 else 1
      else 0
    let comps := splitOnChar '/' p
    let new_comps := comps.foldl
      (fun acc comp =>
        if comp = [] ∨ comp = ".".data then acc
        else if comp ≠ "..".data ∨ (initial_slashes = 0 ∧ acc = []) ∨
            (acc ≠ [] ∧ acc.getLast? = some "..".data) then acc ++ [comp]
        else if acc ≠ [] then acc.dropLast
        else acc)
      ([] : List Line)
    let path := List.replicate initial_slashes '/' ++ joinSlash new_comps
    if path = [] then ".".data else path

/-- posixpath.join restricted to two arguments, as called by the resolver. -/
def posixJoin (a b : Line) : Line :=
  if b.head? = some '/' then b
  else if a = [] ∨ a.getLast? = some '/' then a ++ b
  else a ++ '/' :: b

/-- posixpath.dirname: everything up to the final separator, with trailing
separators stripped unless the head is all separators. -/
def dirname (p : Line) : Line :=
  let revAfter := p.reverse.takeWhile (fun c => c ≠ '/')
  if revAfter.length = p.length then []
  else
    let head := p.take (p.length - revAfter.length)
    if head.any (fun c => c ≠ '/') then (head.reverse.dropWhile (fun c => c = '/')).reverse
    else head

/-- The extension of the final path component in the sense of
posixpath.splitext: the run from the last dot of the basename, provided a
character other than a dot stands before that dot inside the basename. -/
def splitextExt (p : Line) : Line :=
  let basename := (p.reverse.takeWhile (fun c => c ≠ '/')).reverse
  let revTail := basename.reverse.takeWhile (fun c => c ≠ '.')
  if revTail.length = basename.length then []
  else
    let stem := basename.take (basename.length - revTail.length - 1)
    if stem.any (fun c => c ≠ '.') then '.' :: revTail.reverse else []

/-- normalize_target_path of doc_link_check.py lines 37 to 43: drop a
fragment and then a query portion. -/
def normalize_target_path (target : Line) : Line :=
  let target := if target.contains '#' then target.takeWhile (fun c => c ≠ '#') else target
  if target.contains '?' then target.takeWhile (fun c => c ≠ '?') else target

/-- resolve_candidate, doc_link_check.py lines 56 to 80: the guards for an
empty or anchor-only target, the base candidate (repo-rooted for a leading
slash, else relative to the source directory), and the README.md fallback
appended for each candidate that is a directory. -/
def resolve_candidate_base (src_dir target repo_docs_root : Line)
    (isdir : Line → Bool) : List Line :=
  let t := pyStrip target
  if t = [] then []
  else if t.head? = some '#' then []
  else
    let t := normalize_target_path t
    let candidates :=
      if t.head? = some '/' then
        [normpath (posixJoin (dirname repo_docs_root) (t.dropWhile (fun c => c = '/')))]
      else
        [normpath (posixJoin src_dir t)]
    candidates ++ candidates.filterMap
      (fun c => if isdir c then some (posixJoin c "README.md".data) else none)

/-- resolve_candidate, doc_link_check.py lines 82 to 88: for every
candidate without an extension, the three extension variants are pushed
and then the candidate itself. -/
def resolve_candidate_exts (candidates : List Line) : List Line :=
  candidates.flatMap fun c =>
    (if splitextExt c = [] then [c ++ ".md".data, c ++ ".yaml".data, c ++ ".json".data]
      else []) ++ [c]

/-- Helper for the deduplication of dict.fromkeys: keep each element whose
key has not been seen yet, in order. -/
def dedupFirstSeenAux (seen : List Line) : List Line → List Line
  | [] => []
  | x :: xs =>
    if x ∈ seen then dedupFirstSeenAux seen xs
    else x :: dedupFirstSeenAux (x :: seen) xs

/-- list of dict.fromkeys: deduplication keeping the first occurrence of
each element, in order. -/
def dedupFirstSeen (l : List Line) : List Line :=
  dedupFirstSeenAux [] l

/-- Index of the first occurrence of an element in a list of paths, used to
speak about the first-seen order that deduplication preserves. -/
def firstIdx (x : Line) : List Line → Nat
  | [] => 0
  | y :: t => if y = x then 0 else firstIdx x t + 1

/-- resolve_candidate, doc_link_check.py lines 46 to 91. -/
def resolve_candidate (src_dir target repo_docs_root : Line)
    (isdir : Line → Bool) : List Line :=
  dedupFirstSeen (resolve_candidate_exts
    (resolve_candidate_base src_dir target repo_docs_root isdir))

/-- Outcome of checking one extracted link target inside find_broken_links
(doc_link_check.py lines 122 to 135): either some candidate exists, the
first such being retained as resolved_existing, or no candidate exists and
a broken entry is produced whose reported resolved path is the first
candidate, falling back to the raw target for an empty candidate list. -/
inductive LinkResult where
  | ok (resolved_existing : Line)
  | broken (target resolved_path : Line)
deriving DecidableEq, Repr

/-- The per-target body of the find_broken_links loop. -/
def linkResolve (pathExists isdir : Line → Bool)
    (dirpath target docs_root : Line) : LinkResult :=
  let candidates := resolve_candidate dirpath target docs_root isdir
  match candidates.find? pathExists with
  | some c => LinkResult.ok c
  | none => LinkResult.broken target (candidates.headD target)

/-! Filename policy validation, from docs_filename_check.py.  A file is
identified by the components of its path relative to the docs root, the
final component being the basename.  Message text follows the source, with
quote characters written as escapes. -/

/-- Python ch.isupper on the ASCII range. -/
def pyIsUpper (c : Char) : Bool :=
  'A' ≤ c && c ≤ 'Z'

/-- Python str.lower on the ASCII range, applied per character. -/
def pyToLower (c : Char) : Char :=
  if 'A' ≤ c && c ≤ 'Z' then Char.ofNat (c.toNat + 32) else c

/-- Python substring membership, the binary in operator on strings. -/
def pyInStr (pat : Line) : Line → Bool
  | [] => pat.isPrefixOf []
  | c :: rest => pat.isPrefixOf (c :: rest) || pyInStr pat rest

/-- pathlib Path.suffix of a basename: the run from the last dot, provided
that dot is neither the first nor the last character. -/
def pathSuffix (name : Line) : Line :=
  let revTail := name.reverse.takeWhile (fun c => c ≠ '.')
  if revTail.length = name.length then []
  else
    let i := name.length - revTail.length - 1
    if 0 < i ∧ i < name.length - 1 then name.drop i else []

/-- The character class of MD_BASENAME_RE: lowercase letters, digits and
the underscore. -/
def mdClassChar (c : Char) : Bool :=
  ('a' ≤ c && c ≤ 'z') || ('0' ≤ c && c ≤ '9') || c = '_'

/-- Full match of MD_BASENAME_RE, one or more class characters followed by
the literal lowercase markdown extension. -/
def MD_BASENAME_matches (name : Line) : Bool :=
  3 < name.length && name.drop (name.length - 3) = ".md".data &&
    (name.take (name.length - 3)).all mdClassChar

/-- check_path_component_case, docs_filename_check.py lines 54 to 58. -/
def check_path_component_case (component : Line) : Bool :=
  component.any pyIsUpper

def dirUppercaseMsg (comp : Line) : Line :=
  "directory contains uppercase characters: \x27".data ++ comp ++ "\x27".data

def extLowercaseMsgMd (suffix : Line) : Line :=
  "extension must be lowercase \x27.md\x27 (found \x27".data ++ suffix ++ "\x27)".data

def spacesMsg : Line :=
  "filename contains spaces; use underscores instead".data

def hyphenMsg : Line :=
  "filename contains hyphen(s); use underscores instead".data

def upperLettersMsg : Line :=
  "filename contains uppercase letters; use lowercase only".data

def genericMsg : Line :=
  "filename must be lowercase with underscores and contain only letters, digits, and underscores (e.g., \x27my_doc_page.md\x27)".data

def ymlMsg : Line :=
  "YAML files must use the \x27.yaml\x27 extension (rename from .yml → .yaml)".data

def yamlLowercaseMsg (suffix : Line) : Line :=
  "extension must be lowercase \x27.yaml\x27 (found \x27".data ++ suffix ++ "\x27)".data

/-- analyze_file, docs_filename_check.py lines 61 to 121, over the
components of the path relative to the docs root. -/
def analyze_file (parts : List Line) : List Line :=
  let issues := ((parts.dropLast).filter
    (fun comp => check_path_component_case comp)).map dirUppercaseMsg
  let name := parts.getLastD []
  let suffix := pathSuffix name
  if suffix.map pyToLower = ".md".data then
    let issues := issues ++
      (if suffix ≠ ".md".data then [extLowercaseMsgMd suffix] else [])
    if name = "README.md".data then issues
    else if MD_BASENAME_matches name then issues
    else
      let issues := issues ++ (if name.contains ' ' then [spacesMsg] else [])
      let issues := issues ++ (if name.contains '-' then [hyphenMsg] else [])
      let issues := issues ++ (if name.any pyIsUpper then [upperLettersMsg] else [])
      if issues.any (fun msg =>
          pyInStr "spaces".data msg || pyInStr "hyphen".data msg ||
          pyInStr "uppercase".data msg) then issues
      else issues ++ [genericMsg]
  else if suffix.map pyToLower = ".yml".data then
    issues ++ [ymlMsg]
  else if suffix.map pyToLower = ".yaml".data then
    issues ++ (if suffix ≠ ".yaml".data then [yamlLowercaseMsg suffix] else [])
  else issues

/-- find_violations, docs_filename_check.py lines 124 to 150: files outside
the markdown and yaml extensions are keyed only under the verbose flag, and
a path is keyed exactly when its issue list is non-empty. -/
def find_violations (files : List (List Line)) (verbose : Bool) :
    List (List Line × List Line) :=
  files.filterMap fun p =>
    let suffix := (pathSuffix (p.getLastD [])).map pyToLower
    if suffix ≠ ".md".data ∧ suffix ≠ ".yml".data ∧ suffix ≠ ".yaml".data then
      let issues := analyze_file p
      if issues ≠ [] ∧ verbose = true then some (p, issues) else none
    else
      let issues := analyze_file p
      if issues ≠ [] then some (p, issues) else none

/-! Lemmas about the fence scanning loop. -/

theorem scanLines_append (l₁ l₂ : List Line) (st : FenceScanState) (n : Nat) :
    scanLines st n (l₁ ++ l₂) =
      ((scanLines (scanLines st n l₁).1 (n + l₁.length) l₂).1,
        (scanLines st n l₁).2 ++ (scanLines (scanLines st n l₁).1 (n + l₁.length) l₂).2) := by
  induction l₁ generalizing st n with
  | nil => simp [scanLines]
  | cons l ls ih =>
    simp only [List.cons_append, scanLines, List.append_eq]
    rw [ih]
    have harith : n + 1 + ls.length = n + (ls.length + 1) := by omega
    simp [harith, List.append_assoc]

theorem fenceStep_msgs (st : FenceScanState) (n : Nat) (l : Line) :
    ∀ v ∈ (fenceStep st n l).2, ∃ line, v.2 = FenceMsg.lineText line := by
  intro v hv
  unfold fenceStep at hv
  cases hm : fenceMatch l with
  | none => rw [hm] at hv; simp at hv
  | some pr =>
    obtain ⟨seq, rest⟩ := pr
    rw [hm] at hv
    by_cases hin : st.in_block = false
    · simp only [hin, if_true, reduceIte] at hv
      by_cases hr : pyStrip rest = []
      · simp [hr] at hv
        exact ⟨l, by rw [hv]⟩
      · simp [hr] at hv
    · simp only [hin, if_false, reduceIte] at hv
      by_cases hc : seq.head? = st.block_fence_char <;> simp [hc] at hv

theorem scanLines_msgs (ls : List Line) (st : FenceScanState) (n : Nat) :
    ∀ v ∈ (scanLines st n ls).2, ∃ line, v.2 = FenceMsg.lineText line := by
  induction ls generalizing st n with
  | nil => simp [scanLines]
  | cons l t ih =>
    intro v hv
    simp only [scanLines] at hv
    rcases List.mem_append.mp hv with h | h
    · exact fenceStep_msgs st n l v h
    · exact ih _ _ v h

theorem scanLines_inside_literal (ls : List Line) (st : FenceScanState) (n : Nat)
    (hin : st.in_block = true)
    (h : ∀ line ∈ ls, ∀ pr, fenceMatch line = some pr → pr.1.head? ≠ st.block_fence_char) :
    scanLines st n ls = (st, []) := by
  induction ls generalizing n with
  | nil => rfl
  | cons l t ih =>
    have hstep : fenceStep st n l = (st, []) := by
      unfold fenceStep
      cases hm : fenceMatch l with
      | none => rfl
      | some pr =>
        obtain ⟨seq, rest⟩ := pr
        have hne := h l (by simp) (seq, rest) hm
        simp [hin, hne]
    simp [scanLines, hstep,
      ih (n + 1) (fun line hl => h line (List.mem_cons_of_mem _ hl))]

theorem scanLines_nonfence (ls : List Line) (st : FenceScanState) (n : Nat)
    (h : ∀ line ∈ ls, fenceMatch line = none) :
    scanLines st n ls = (st, []) := by
  induction ls generalizing n with
  | nil => rfl
  | cons l t ih =>
    have hstep : fenceStep st n l = (st, []) := by
      unfold fenceStep
      rw [h l (by simp)]
    simp [scanLines, hstep,
      ih (n + 1) (fun line hl => h line (List.mem_cons_of_mem _ hl))]

/-- C1: when a fenced block has been opened with a backtick fence and every
remaining line that matches the fence pattern uses the tilde character, the
tilde fence lines are literal content causing no state transition, the
scanner stays inside the block to the end of the file, and the scan records
exactly one unclosed-code-block violation, at the stored opening line
number. -/
theorem c1_backtick_block_tilde_fences (l₁ l₂ : List Line) (st : FenceScanState)
    (vs : List (Nat × FenceMsg))
    (h₁ : scanLines initFenceState 1 l₁ = (st, vs))
    (h₂ : st.in_block = true)
    (h₃ : st.block_fence_char = some '`')
    (h₄ : ∀ line ∈ l₂, ∀ pr, fenceMatch line = some pr → pr.1.head? = some '~') :
    scanFileFences (l₁ ++ l₂) =
      vs ++ [(st.block_open_line, FenceMsg.unclosed st.block_open_line)]
    ∧ (scanLines initFenceState 1 (l₁ ++ l₂)).1 = st
    ∧ (scanFileFences (l₁ ++ l₂)).countP
        (fun v => match v.2 with | FenceMsg.unclosed _ => true | _ => false) = 1 := by
  have hlit : scanLines st (1 + l₁.length) l₂ = (st, []) := by
    refine scanLines_inside_literal _ _ _ h₂ (fun line hl pr hpr => ?_)
    rw [h₄ line hl pr hpr, h₃]
    decide
  have happ := scanLines_append l₁ l₂ initFenceState 1
  rw [h₁] at happ
  simp only at happ
  rw [hlit] at happ
  simp only [List.append_nil] at happ
  have hscan : scanFileFences (l₁ ++ l₂) =
      vs ++ [(st.block_open_line, FenceMsg.unclosed st.block_open_line)] := by
    unfold scanFileFences
    rw [happ]
    simp [h₂]
  refine ⟨hscan, by rw [happ], ?_⟩
  rw [hscan, List.countP_append]
  have hvs : vs.countP (fun v => match v.2 with
      | FenceMsg.unclosed _ => true | _ => false) = 0 := by
    rw [List.countP_eq_zero]
    intro v hv
    obtain ⟨line, hline⟩ := by
      have := scanLines_msgs l₁ initFenceState 1 v
      rw [h₁] at this
      exact this hv
    simp [hline]
  rw [hvs]
  rfl

/-- C1 witness at a concrete file: a backtick fence opened on line 1 and a
lone tilde fence after it. -/
theorem c1_backtick_block_tilde_fences_witness :
    scanFileFences ( "```rust".data :: [ "~~~".data]) =
      [] ++ [(1, FenceMsg.unclosed 1)]
    ∧ (scanLines initFenceState 1 ( "```rust".data :: [ "~~~".data])).1 =
      { in_block := true, block_fence_char := some '`', block_open_line := 1 }
    ∧ (scanFileFences ( "```rust".data :: [ "~~~".data])).countP
        (fun v => match v.2 with | FenceMsg.unclosed _ => true | _ => false) = 1 := by
  have h := c1_backtick_block_tilde_fences [ "```rust".data] [ "~~~".data]
    { in_block := true, block_fence_char := some '`', block_open_line := 1 } []
    (by decide) (by decide) (by decide)
    (fun line hl pr hpr => by
      rw [List.mem_singleton.mp hl] at hpr
      have : fenceMatch "~~~".data = some ( "~~~".data, []) := by decide
      rw [this] at hpr
      cases hpr
      decide)
  simpa using h

/-- C2: a fence line met outside any block whose trailing content strips to
nothing records the missing-tag violation for that line and still enters
the block state, storing the fence character and the line number as the
open marker; a following non-fence line is then block content, changing
nothing. -/
theorem c2_untagged_fence_still_opens (st : FenceScanState) (lineno : Nat)
    (line seq rest : Line)
    (h₁ : st.in_block = false)
    (h₂ : fenceMatch line = some (seq, rest))
    (h₃ : pyStrip rest = []) :
    fenceStep st lineno line =
      ({ in_block := true, block_fence_char := seq.head?, block_open_line := lineno },
        [(lineno, FenceMsg.lineText line)])
    ∧ ∀ lineno₂ line₂, fenceMatch line₂ = none →
        fenceStep ⟨true, seq.head?, lineno⟩ lineno₂ line₂ =
          (⟨true, seq.head?, lineno⟩, []) := by
  constructor
  · unfold fenceStep
    rw [h₂]
    simp [h₁, h₃]
  · intro lineno₂ line₂ hn
    unfold fenceStep
    rw [hn]

/-- C2 witness at a concrete untagged fence line. -/
theorem c2_untagged_fence_still_opens_witness :
    fenceStep initFenceState 1 "```".data =
      ({ in_block := true, block_fence_char := some '`', block_open_line := 1 },
        [(1, FenceMsg.lineText "```".data)])
    ∧ ∀ lineno₂ line₂, fenceMatch line₂ = none →
        fenceStep ⟨true, some '`', 1⟩ lineno₂ line₂ =
          (⟨true, some '`', 1⟩, []) := by
  have h := c2_untagged_fence_still_opens initFenceState 1 "```".data "```".data []
    (by decide) (by decide) (by decide)
  simpa using h

/-- C9: a block opened by a three-character fence with a non-empty tag is
closed by any later fence line of four or more of the same character; the
scan returns to the outside state and records no violation for the block. -/
theorem c9_longer_close_fence_accepted (c : Char) (l1 l2 : Line) (mid : List Line)
    (s1 r1 s2 r2 : Line)
    (h1 : fenceMatch l1 = some (s1, r1)) (h2 : pyStrip r1 ≠ [])
    (h3 : s1.head? = some c) (h4 : s1.length = 3)
    (hm : ∀ m ∈ mid, fenceMatch m = none)
    (h5 : fenceMatch l2 = some (s2, r2)) (h6 : s2.head? = some c)
    (h7 : 4 ≤ s2.length) :
    scanFileFences (l1 :: mid ++ [l2]) = []
    ∧ (scanLines initFenceState 1 (l1 :: mid ++ [l2])).1.in_block = false := by
  have hstep1 : fenceStep initFenceState 1 l1 = (⟨true, some c, 1⟩, []) := by
    unfold fenceStep
    rw [h1]
    simp [initFenceState, h2, h3]
  have hmid : scanLines ⟨true, some c, 1⟩ 2 mid = (⟨true, some c, 1⟩, []) :=
    scanLines_nonfence mid _ 2 hm
  have hstep2 : ∀ n, fenceStep ⟨true, some c, 1⟩ n l2 =
      (⟨false, none, 0⟩, []) := by
    intro n
    unfold fenceStep
    rw [h5]
    simp [h6]
  have hscan : scanLines initFenceState 1 (l1 :: mid ++ [l2]) = (⟨false, none, 0⟩, []) := by
    have h9 : scanLines ⟨true, some c, 1⟩ 2 (mid ++ [l2]) = (⟨false, none, 0⟩, []) := by
      rw [scanLines_append]
      rw [hmid]
      simp [scanLines, hstep2]
    simp [scanLines, hstep1, h9]
  constructor
  · unfold scanFileFences
    rw [hscan]
    simp
  · rw [hscan]

/-- C9 witness: a three-backtick tagged fence closed by four backticks. -/
theorem c9_longer_close_fence_accepted_witness :
    scanFileFences ( "```rust".data :: [ "x".data] ++ [ "````".data]) = []
    ∧ (scanLines initFenceState 1
        ( "```rust".data :: [ "x".data] ++ [ "````".data])).1.in_block = false := by
  exact c9_longer_close_fence_accepted '`' "```rust".data "````".data [ "x".data]
    "```".data "rust".data "````".data []
    (by decide) (by decide) (by decide) (by decide)
    (fun m hm => by rw [List.mem_singleton.mp hm]; decide)
    (by decide) (by decide) (by decide)

/-- C8 counterexample: a file whose first line is an untagged fence and
whose bytes then fail to decode.  The missing-tag violation recorded at
line 1 stays in the file's list and the except handler appends the
sentinel to it, so the scan result for the file is two entries, not a
single file-level violation as the claim states. -/
theorem c8_counterexample_midfile_decode :
    fenceFileViolations ⟨[ "```".data], true⟩ =
      [(1, FenceMsg.lineText "```".data), (0, FenceMsg.binaryFile)]
    ∧ (fenceFileViolations ⟨[ "```".data], true⟩).length ≠ 1 := by
  refine ⟨by decide, by decide⟩

/-- C8 (amended): for a file whose decode fails, the file is scanned no
further than the decoded prefix: the recorded result is the loop
violations of that prefix, all of them line-text entries with no unclosed
entry because the end-of-file check is skipped, followed by exactly one
sentinel violation at line number 0; when decoding fails before any line
is yielded the result is the single sentinel entry; and the scan of the
remaining files continues. -/
theorem c8_decode_failure_appends_sentinel (pre post : List (Line × FileText))
    (p : Line) (ls : List Line) :
    (∃ vs, fenceFileViolations ⟨ls, true⟩ = vs ++ [(0, FenceMsg.binaryFile)]
      ∧ ∀ v ∈ vs, ∃ line, v.2 = FenceMsg.lineText line)
    ∧ (fenceFileViolations ⟨ls, true⟩).countP
        (fun v => match v.2 with | FenceMsg.binaryFile => true | _ => false) = 1
    ∧ (ls = [] → fenceFileViolations ⟨ls, true⟩ = [(0, FenceMsg.binaryFile)])
    ∧ find_missing_language_tags (pre ++ (p, ⟨ls, true⟩) :: post) =
        find_missing_language_tags pre ++
          (p, fenceFileViolations ⟨ls, true⟩) :: find_missing_language_tags post := by
  have hval : fenceFileViolations ⟨ls, true⟩ =
      (scanLines initFenceState 1 ls).2 ++ [(0, FenceMsg.binaryFile)] := rfl
  refine ⟨⟨(scanLines initFenceState 1 ls).2, hval, scanLines_msgs ls initFenceState 1⟩,
    ?_, ?_, ?_⟩
  · rw [hval, List.countP_append]
    have h0 : (scanLines initFenceState 1 ls).2.countP (fun v => match v.2 with
        | FenceMsg.binaryFile => true | _ => false) = 0 := by
      rw [List.countP_eq_zero]
      intro v hv
      obtain ⟨line, hline⟩ := scanLines_msgs ls initFenceState 1 v hv
      simp [hline]
    rw [h0]
    rfl
  · intro hnil
    subst hnil
    rfl
  · have hne : fenceFileViolations ⟨ls, true⟩ ≠ [] := by
      rw [hval]
      intro h
      rcases List.append_eq_nil.mp h with ⟨_, h2⟩
      cases h2
    simp only [find_missing_language_tags, List.filterMap_append, List.filterMap_cons]
    rw [if_neg hne]

/-- C8 witness at a concrete tree: a clean file, then a file whose decode
fails after its untagged fence line, then another clean file. -/
theorem c8_decode_failure_appends_sentinel_witness :
    (∃ vs, fenceFileViolations ⟨[ "```".data], true⟩ = vs ++ [(0, FenceMsg.binaryFile)]
      ∧ ∀ v ∈ vs, ∃ line, v.2 = FenceMsg.lineText line)
    ∧ (fenceFileViolations ⟨[ "```".data], true⟩).countP
        (fun v => match v.2 with | FenceMsg.binaryFile => true | _ => false) = 1
    ∧ ([ "```".data] = ([] : List Line) →
        fenceFileViolations ⟨[ "```".data], true⟩ = [(0, FenceMsg.binaryFile)])
    ∧ find_missing_language_tags ([( "ok".data, ⟨[ "x".data], false⟩)] ++
        ( "bad".data, ⟨[ "```".data], true⟩) :: [( "c".data, ⟨[ "```".data], false⟩)]) =
        find_missing_language_tags [( "ok".data, ⟨[ "x".data], false⟩)] ++
          ( "bad".data, fenceFileViolations ⟨[ "```".data], true⟩) ::
          find_missing_language_tags [( "c".data, ⟨[ "```".data], false⟩)] :=
  c8_decode_failure_appends_sentinel [( "ok".data, ⟨[ "x".data], false⟩)]
    [( "c".data, ⟨[ "```".data], false⟩)] "bad".data [ "```".data]

/-- C10: in both the fence checker and the naming checker, every path keyed
in the returned violation mapping maps to a non-empty violation list, and a
file for which no violation was computed never appears as a key. -/
theorem c10_no_empty_violation_keys :
    (∀ files p vs, (p, vs) ∈ find_missing_language_tags files → vs ≠ [])
    ∧ (∀ files verbose p vs, (p, vs) ∈ find_violations files verbose → vs ≠ [])
    ∧ (∀ files p, (∀ c, (p, c) ∈ files → fenceFileViolations c = []) →
        ∀ vs, (p, vs) ∉ find_missing_language_tags files)
    ∧ (∀ files verbose p, analyze_file p = [] →
        ∀ vs, (p, vs) ∉ find_violations files verbose) := by
  refine ⟨?_, ?_, ?_, ?_⟩
  · intro files p vs hmem
    simp only [find_missing_language_tags, List.mem_filterMap] at hmem
    obtain ⟨f, hf, heq⟩ := hmem
    by_cases hz : fenceFileViolations f.2 = []
    · simp [hz] at heq
    · simp only [hz, if_false, reduceIte, Option.some.injEq, Prod.mk.injEq] at heq
      rw [← heq.2]
      exact hz
  · intro files verbose p vs hmem
    simp only [find_violations, List.mem_filterMap] at hmem
    obtain ⟨q, hq, heq⟩ := hmem
    split at heq
    · split at heq
      · rename_i hcond
        simp only [Option.some.injEq, Prod.mk.injEq] at heq
        rw [← heq.2]
        exact hcond.1
      · exact absurd heq (by simp)
    · split at heq
      · rename_i hcond
        simp only [Option.some.injEq, Prod.mk.injEq] at heq
        rw [← heq.2]
        exact hcond
      · exact absurd heq (by simp)
  · intro files p hall vs hmem
    simp only [find_missing_language_tags, List.mem_filterMap] at hmem
    obtain ⟨f, hf, heq⟩ := hmem
    by_cases hz : fenceFileViolations f.2 = []
    · simp [hz] at heq
    · simp only [hz, if_false, reduceIte, Option.some.injEq, Prod.mk.injEq] at heq
      refine hz (hall f.2 ?_)
      rw [← heq.1]
      exact hf
  · intro files verbose p hp vs hmem
    simp only [find_violations, List.mem_filterMap] at hmem
    obtain ⟨q, hq, heq⟩ := hmem
    split at heq
    · split at heq
      · rename_i hcond
        simp only [Option.some.injEq, Prod.mk.injEq] at heq
        rw [heq.1, hp] at hcond
        exact hcond.1 rfl
      · exact absurd heq (by simp)
    · split at heq
      · rename_i hcond
        simp only [Option.some.injEq, Prod.mk.injEq] at heq
        rw [heq.1, hp] at hcond
        exact hcond rfl
      · exact absurd heq (by simp)

/-- C10 witness at concrete trees: keyed files carry non-empty lists, and
clean files are not keyed. -/
theorem c10_no_empty_violation_keys_witness :
    [(1, FenceMsg.lineText "```".data), (1, FenceMsg.unclosed 1)] ≠
      ([] : List (Nat × FenceMsg))
    ∧ [ymlMsg] ≠ ([] : List Line)
    ∧ ( "a".data, [(1, FenceMsg.unclosed 1)]) ∉
        find_missing_language_tags
          [( "a".data, ⟨[ "```rust".data, "x".data, "```".data], false⟩)]
    ∧ ( [ "ok.md".data], [genericMsg]) ∉ find_violations [[ "ok.md".data]] false := by
  refine ⟨?_, ?_, ?_, ?_⟩
  · exact c10_no_empty_violation_keys.1 [( "a".data, ⟨[ "```".data], false⟩)] "a".data
      [(1, FenceMsg.lineText "```".data), (1, FenceMsg.unclosed 1)] (by decide)
  · exact c10_no_empty_violation_keys.2.1 [[ "notes.yml".data]] false [ "notes.yml".data]
      [ymlMsg] (by decide)
  · refine c10_no_empty_violation_keys.2.2.1 _ _ (fun c hc => ?_) _
    rw [show c = ⟨[ "```rust".data, "x".data, "```".data], false⟩ from
      congrArg Prod.snd (List.mem_singleton.mp hc)]
    decide
  · exact c10_no_empty_violation_keys.2.2.2 [[ "ok.md".data]] false [ "ok.md".data]
      (by decide) [genericMsg]

/-! Lemmas about first-seen deduplication, used for the resolver claims. -/

theorem firstIdx_cons_self (b : Line) (t : List Line) : firstIdx b (b :: t) = 0 := by
  simp [firstIdx]

theorem firstIdx_cons_ne (b x : Line) (t : List Line) (h : b ≠ x) :
    firstIdx x (b :: t) = firstIdx x t + 1 := by
  simp [firstIdx, h]

theorem mem_dedupFirstSeenAux (x : Line) :
    ∀ (l : List Line) (seen : List Line),
      x ∈ dedupFirstSeenAux seen l ↔ x ∈ l ∧ x ∉ seen := by
  intro l
  induction l with
  | nil => simp [dedupFirstSeenAux]
  | cons a t ih =>
    intro seen
    by_cases ha : a ∈ seen
    · rw [dedupFirstSeenAux, if_pos ha, ih]
      constructor
      · rintro ⟨hx, hns⟩
        exact ⟨List.mem_cons_of_mem _ hx, hns⟩
      · rintro ⟨hx, hns⟩
        rcases List.mem_cons.mp hx with rfl | hx'
        · exact absurd ha hns
        · exact ⟨hx', hns⟩
    · rw [dedupFirstSeenAux, if_neg ha]
      constructor
      · intro hm
        rcases List.mem_cons.mp hm with rfl | hm'
        · exact ⟨List.mem_cons_self _ _, ha⟩
        · obtain ⟨hx, hns⟩ := (ih (a :: seen)).mp hm'
          refine ⟨List.mem_cons_of_mem _ hx, fun hxs => hns (List.mem_cons_of_mem _ hxs)⟩
      · rintro ⟨hx, hns⟩
        rcases List.mem_cons.mp hx with rfl | hx'
        · exact List.mem_cons_self _ _
        · by_cases hxa : x = a
          · subst hxa
            exact List.mem_cons_self _ _
          · refine List.mem_cons_of_mem _ ((ih (a :: seen)).mpr ⟨hx', ?_⟩)
            intro hm
            rcases List.mem_cons.mp hm with h | h
            · exact hxa h
            · exact hns h

theorem mem_dedupFirstSeen (x : Line) (l : List Line) :
    x ∈ dedupFirstSeen l ↔ x ∈ l := by
  unfold dedupFirstSeen
  rw [mem_dedupFirstSeenAux]
  simp

theorem dedupFirstSeenAux_nodup :
    ∀ (l : List Line) (seen : List Line), (dedupFirstSeenAux seen l).Nodup := by
  intro l
  induction l with
  | nil => intro seen; simp [dedupFirstSeenAux]
  | cons a t ih =>
    intro seen
    by_cases ha : a ∈ seen
    · rw [dedupFirstSeenAux, if_pos ha]
      exact ih seen
    · rw [dedupFirstSeenAux, if_neg ha]
      refine List.nodup_cons.mpr ⟨?_, ih (a :: seen)⟩
      intro hmem
      have := (mem_dedupFirstSeenAux a t (a :: seen)).mp hmem
      exact this.2 (List.mem_cons_self _ _)

theorem dedupFirstSeen_nodup (l : List Line) : (dedupFirstSeen l).Nodup :=
  dedupFirstSeenAux_nodup l []

theorem dedupFirstSeen_eq_nil (l : List Line) : dedupFirstSeen l = [] ↔ l = [] := by
  cases l with
  | nil => simp [dedupFirstSeen, dedupFirstSeenAux]
  | cons a t =>
    unfold dedupFirstSeen dedupFirstSeenAux
    rw [if_neg (by simp)]
    simp

theorem firstIdx_dedupAux_lt (x y : Line) :
    ∀ (l : List Line) (seen : List Line), x ∈ l → y ∈ l → x ∉ seen → y ∉ seen →
      firstIdx x l < firstIdx y l →
      firstIdx x (dedupFirstSeenAux seen l) < firstIdx y (dedupFirstSeenAux seen l) := by
  intro l
  induction l with
  | nil => simp
  | cons a t ih =>
    intro seen hx hy hxs hys hlt
    by_cases ha : a ∈ seen
    · rw [dedupFirstSeenAux, if_pos ha]
      have hax : a ≠ x := fun h => hxs (h ▸ ha)
      have hay : a ≠ y := fun h => hys (h ▸ ha)
      have hx' : x ∈ t := by
        rcases List.mem_cons.mp hx with h | h
        · exact absurd h.symm hax
        · exact h
      have hy' : y ∈ t := by
        rcases List.mem_cons.mp hy with h | h
        · exact absurd h.symm hay
        · exact h
      rw [firstIdx_cons_ne _ _ _ hax, firstIdx_cons_ne _ _ _ hay] at hlt
      exact ih seen hx' hy' hxs hys (by omega)
    · rw [dedupFirstSeenAux, if_neg ha]
      by_cases hax : a = x
      · subst hax
        have hay : a ≠ y := by
          intro h
          subst h
          exact Nat.lt_irrefl _ hlt
        rw [firstIdx_cons_self, firstIdx_cons_ne _ _ _ hay]
        omega
      · have hay : a ≠ y := by
          intro h
          subst h
          rw [firstIdx_cons_self, firstIdx_cons_ne _ _ _ hax] at hlt
          omega
        have hx' : x ∈ t := by
          rcases List.mem_cons.mp hx with h | h
          · exact absurd h.symm hax
          · exact h
        have hy' : y ∈ t := by
          rcases List.mem_cons.mp hy with h | h
          · exact absurd h.symm hay
          · exact h
        have hxs' : x ∉ a :: seen := by
          intro h
          rcases List.mem_cons.mp h with h | h
          · exact hax h.symm
          · exact hxs h
        have hys' : y ∉ a :: seen := by
          intro h
          rcases List.mem_cons.mp h with h | h
          · exact hay h.symm
          · exact hys h
        rw [firstIdx_cons_ne _ _ _ hax, firstIdx_cons_ne _ _ _ hay] at hlt
        have hrec := ih (a :: seen) hx' hy' hxs' hys' (by omega)
        rw [firstIdx_cons_ne _ _ _ hax, firstIdx_cons_ne _ _ _ hay]
        omega

theorem firstIdx_dedup_lt (x y : Line) (l : List Line)
    (hx : x ∈ l) (hy : y ∈ l) (hlt : firstIdx x l < firstIdx y l) :
    firstIdx x (dedupFirstSeen l) < firstIdx y (dedupFirstSeen l) :=
  firstIdx_dedupAux_lt x y l [] hx hy (by simp) (by simp) hlt

theorem head?_append_of_ne_nil (l m : Line) (h : l ≠ []) : (l ++ m).head? = l.head? := by
  cases l with
  | nil => exact absurd rfl h
  | cons a t => rfl

theorem takeWhile_length_eq (p : Char → Bool) :
    ∀ (l : Line), (l.takeWhile p).length = l.length → ∀ x ∈ l, p x = true := by
  intro l
  induction l with
  | nil => simp
  | cons a t ih =>
    intro hlen x hx
    by_cases hpa : p a = true
    · rw [List.takeWhile_cons_of_pos hpa] at hlen
      simp only [List.length_cons, Nat.succ.injEq] at hlen
      rcases List.mem_cons.mp hx with rfl | hx'
      · exact hpa
      · exact ih hlen x hx'
    · rw [List.takeWhile_cons_of_neg (by simpa using hpa)] at hlen
      simp at hlen

theorem takeWhile_length_le (p : Char → Bool) :
    ∀ (l : Line), (l.takeWhile p).length ≤ l.length := by
  intro l
  induction l with
  | nil => simp
  | cons a t ih =>
    by_cases hpa : p a = true
    · rw [List.takeWhile_cons_of_pos hpa]
      simpa using ih
    · rw [List.takeWhile_cons_of_neg (by simpa using hpa)]
      simp

theorem dropWhile_head_not (p : Char → Bool) (l : Line) (c : Char)
    (h : (l.dropWhile p).head? = some c) : p c = false := by
  induction l with
  | nil => simp [List.dropWhile] at h
  | cons a t ih =>
    by_cases hpa : p a = true
    · rw [List.dropWhile_cons_of_pos hpa] at h
      exact ih h
    · rw [List.dropWhile_cons_of_neg (by simpa using hpa)] at h
      simp only [List.head?_cons, Option.some.injEq] at h
      rw [← h]
      simpa using hpa

theorem dropWhile_eq_drop (p : Char → Bool) :
    ∀ (l : Line), ∃ n, l.dropWhile p = l.drop n := by
  intro l
  induction l with
  | nil => exact ⟨0, rfl⟩
  | cons a t ih =>
    by_cases hpa : p a = true
    · obtain ⟨n, hn⟩ := ih
      exact ⟨n + 1, by rw [List.dropWhile_cons_of_pos hpa, List.drop_succ_cons, hn]⟩
    · exact ⟨0, by rw [List.dropWhile_cons_of_neg (by simpa using hpa)]; rfl⟩

theorem getLast?_drop_of_ne_nil : ∀ (l : Line) (n : Nat), l.drop n ≠ [] →
    (l.drop n).getLast? = l.getLast? := by
  intro l
  induction l with
  | nil => intro n h; simp at h
  | cons a t ih =>
    intro n h
    cases n with
    | zero => rfl
    | succ m =>
      rw [List.drop_succ_cons] at h ⊢
      rw [ih m h]
      have ht : t ≠ [] := by
        intro heq
        rw [heq] at h
        simp at h
      cases t with
      | nil => exact absurd rfl ht
      | cons b u => simp [List.getLast?_cons_cons]

theorem rstrip_head (q : Char → Bool) (l : Line)
    (hne : l.reverse.dropWhile q ≠ []) :
    ((l.reverse.dropWhile q).reverse).head? = l.head? := by
  obtain ⟨n, hn⟩ := dropWhile_eq_drop q l.reverse
  rw [hn] at hne ⊢
  rw [List.head?_reverse]
  rw [getLast?_drop_of_ne_nil _ _ hne]
  exact List.getLast?_reverse l

theorem head?_take_pos (l : Line) (n : Nat) (h : 1 ≤ n) : (l.take n).head? = l.head? := by
  cases l with
  | nil => simp
  | cons a t =>
    cases n with
    | zero => omega
    | succ m => rfl

theorem dirname_head (p : Line) (h : p.head? = some '/') :
    (dirname p).head? = some '/' := by
  have hp : p = '/' :: p.tail := by
    cases p with
    | nil => simp at h
    | cons a t => simp only [List.head?_cons, Option.some.injEq] at h; rw [h]; rfl
  have hmem : '/' ∈ p.reverse := by
    rw [List.mem_reverse, hp]
    exact List.mem_cons_self _ _
  unfold dirname
  have hlt : (p.reverse.takeWhile (fun c => c ≠ '/')).length ≠ p.length := by
    intro heq
    have := takeWhile_length_eq (fun c => c ≠ '/') p.reverse
      (by rw [heq, List.length_reverse]) '/' hmem
    simp at this
  rw [if_neg (by simpa using hlt)]
  have hk : 1 ≤ p.length - (p.reverse.takeWhile (fun c => c ≠ '/')).length := by
    have hle : (p.reverse.takeWhile (fun c => c ≠ '/')).length ≤ p.length := by
      have := takeWhile_length_le (fun c => decide (c ≠ '/')) p.reverse
      simpa using this
    omega
  have hhead : (p.take (p.length - (p.reverse.takeWhile (fun c => c ≠ '/')).length)).head? =
      some '/' := by
    rw [head?_take_pos _ _ hk]
    exact h
  by_cases hany : (p.take (p.length - (p.reverse.takeWhile (fun c => c ≠ '/')).length)).any
      (fun c => c ≠ '/') = true
  · rw [if_pos hany]
    have hdne : (p.take (p.length - (p.reverse.takeWhile (fun c => c ≠ '/')).length)).reverse.dropWhile
        (fun c => c = '/') ≠ [] := by
      intro heq
      rw [List.dropWhile_eq_nil_iff] at heq
      simp only [List.any_eq_true] at hany
      obtain ⟨x, hx, hxne⟩ := hany
      have := heq x (by rw [List.mem_reverse]; exact hx)
      simp at this
      simp at hxne
      exact hxne this
    rw [rstrip_head _ _ hdne]
    exact hhead
  · rw [if_neg hany]
    exact hhead

theorem posixJoin_head (a b : Line) (ha : a.head? = some '/')
    (hb : b.head? ≠ some '/') : (posixJoin a b).head? = some '/' := by
  have hane : a ≠ [] := by
    intro h
    rw [h] at ha
    simp at ha
  unfold posixJoin
  rw [if_neg hb]
  by_cases hcase : a = [] ∨ a.getLast? = some '/'
  · rw [if_pos hcase, head?_append_of_ne_nil _ _ hane]
    exact ha
  · rw [if_neg hcase, head?_append_of_ne_nil _ _ hane]
    exact ha

theorem normpath_head (p : Line) (h : p.head? = some '/') :
    (normpath p).head? = some '/' := by
  have hne : p ≠ [] := by
    intro heq
    rw [heq] at h
    simp at h
  unfold normpath
  rw [if_neg hne]
  simp only [h, reduceIte, if_pos rfl]
  by_cases hpp : "//".data.isPrefixOf p ∧ ¬ "///".data.isPrefixOf p
  · rw [if_pos hpp]
    rfl
  · rw [if_neg hpp]
    rfl

theorem ite_nil_dot_ne_nil (x : Line) : (if x = [] then ".".data else x) ≠ [] := by
  split
  · decide
  · rename_i h
    exact h

theorem normpath_ne_nil (p : Line) : normpath p ≠ [] := by
  unfold normpath
  by_cases hp : p = []
  · rw [if_pos hp]
    decide
  · rw [if_neg hp]
    exact ite_nil_dot_ne_nil _

theorem resolve_candidate_exts_mem (l : List Line) (x : Line)
    (hx : x ∈ resolve_candidate_exts l) :
    ∃ c ∈ l, x = c ∨ x = c ++ ".md".data ∨ x = c ++ ".yaml".data ∨ x = c ++ ".json".data := by
  unfold resolve_candidate_exts at hx
  rw [List.mem_flatMap] at hx
  obtain ⟨c, hc, hmem⟩ := hx
  refine ⟨c, hc, ?_⟩
  rcases List.mem_append.mp hmem with h | h
  · by_cases hext : splitextExt c = []
    · rw [if_pos hext] at h
      rcases List.mem_cons.mp h with rfl | h
      · exact Or.inr (Or.inl rfl)
      rcases List.mem_cons.mp h with rfl | h
      · exact Or.inr (Or.inr (Or.inl rfl))
      rcases List.mem_cons.mp h with rfl | h
      · exact Or.inr (Or.inr (Or.inr rfl))
      · simp at h
    · rw [if_neg hext] at h
      simp at h
  · rw [List.mem_singleton.mp h]
    exact Or.inl rfl

theorem resolve_candidate_exts_ne_nil (l : List Line) (h : l ≠ []) :
    resolve_candidate_exts l ≠ [] := by
  cases l with
  | nil => exact absurd rfl h
  | cons c t =>
    unfold resolve_candidate_exts
    rw [List.flatMap_cons]
    intro heq
    rcases List.append_eq_nil.mp heq with ⟨h1, _⟩
    rcases List.append_eq_nil.mp h1 with ⟨_, h2⟩
    cases h2

theorem resolve_candidate_base_heads (src_dir target repo_docs_root : Line)
    (isdir : Line → Bool)
    (hsrc : src_dir.head? = some '/') (hroot : repo_docs_root.head? = some '/') :
    ∀ c ∈ resolve_candidate_base src_dir target repo_docs_root isdir,
      c.head? = some '/' := by
  intro c hc
  simp only [resolve_candidate_base] at hc
  by_cases h1 : pyStrip target = []
  · rw [if_pos h1] at hc
    simp at hc
  · rw [if_neg h1] at hc
    by_cases h2 : (pyStrip target).head? = some '#'
    · rw [if_pos h2] at hc
      simp at hc
    · rw [if_neg h2] at hc
      have hbase : ∀ b ∈ (if (normalize_target_path (pyStrip target)).head? = some '/'
          then [normpath (posixJoin (dirname repo_docs_root)
            ((normalize_target_path (pyStrip target)).dropWhile (fun c => c = '/')))]
          else [normpath (posixJoin src_dir (normalize_target_path (pyStrip target)))]),
          b.head? = some '/' := by
        intro b hb
        by_cases h3 : (normalize_target_path (pyStrip target)).head? = some '/'
        · rw [if_pos h3] at hb
          rw [List.mem_singleton.mp hb]
          refine normpath_head _ (posixJoin_head _ _ (dirname_head _ hroot) ?_)
          intro hdh
          have := dropWhile_head_not (fun c => decide (c = '/')) _ '/' hdh
          simp at this
        · rw [if_neg h3] at hb
          rw [List.mem_singleton.mp hb]
          exact normpath_head _ (posixJoin_head _ _ hsrc h3)
      rcases List.mem_append.mp hc with h | h
      · exact hbase c h
      · rw [List.mem_filterMap] at h
        obtain ⟨b, hb, hsome⟩ := h
        by_cases hd : isdir b = true
        · rw [if_pos hd] at hsome
          injection hsome with hsome
          rw [← hsome]
          refine posixJoin_head _ _ (hbase b hb) ?_
          decide
        · rw [if_neg (by simpa using hd)] at hsome
          cases hsome

theorem resolve_candidate_heads (src_dir target repo_docs_root : Line)
    (isdir : Line → Bool)
    (hsrc : src_dir.head? = some '/') (hroot : repo_docs_root.head? = some '/') :
    ∀ c ∈ resolve_candidate src_dir target repo_docs_root isdir,
      c.head? = some '/' := by
  intro c hc
  unfold resolve_candidate at hc
  have hmem := (mem_dedupFirstSeen c _).mp hc
  obtain ⟨b, hb, hshape⟩ := resolve_candidate_exts_mem _ _ hmem
  have hbh := resolve_candidate_base_heads _ _ _ _ hsrc hroot b hb
  have hbne : b ≠ [] := by
    intro h
    rw [h] at hbh
    simp at hbh
  rcases hshape with rfl | rfl | rfl | rfl
  · exact hbh
  · rw [head?_append_of_ne_nil _ _ hbne]
    exact hbh
  · rw [head?_append_of_ne_nil _ _ hbne]
    exact hbh
  · rw [head?_append_of_ne_nil _ _ hbne]
    exact hbh

theorem resolve_candidate_base_ne_nil (src_dir target repo_docs_root : Line)
    (isdir : Line → Bool)
    (h1 : pyStrip target ≠ []) (h2 : (pyStrip target).head? ≠ some '#') :
    resolve_candidate_base src_dir target repo_docs_root isdir ≠ [] := by
  simp only [resolve_candidate_base]
  rw [if_neg h1, if_neg h2]
  intro heq
  rcases List.append_eq_nil.mp heq with ⟨hc, _⟩
  by_cases h3 : (normalize_target_path (pyStrip target)).head? = some '/'
  · rw [if_pos h3] at hc
    cases hc
  · rw [if_neg h3] at hc
    cases hc

theorem resolve_candidate_empty_cases (src_dir target repo_docs_root : Line)
    (isdir : Line → Bool)
    (h : pyStrip target = [] ∨ (pyStrip target).head? = some '#') :
    resolve_candidate src_dir target repo_docs_root isdir = [] := by
  have hbase : resolve_candidate_base src_dir target repo_docs_root isdir = [] := by
    simp only [resolve_candidate_base]
    rcases h with h | h
    · rw [if_pos h]
    · have hne : pyStrip target ≠ [] := by
        intro heq
        rw [heq] at h
        simp at h
      rw [if_neg hne, if_pos h]
  unfold resolve_candidate
  rw [hbase]
  rfl

/-- C3: for a target that is non-empty after trimming and is not
anchor-only, resolve_candidate returns a non-empty list whose members are
all absolute paths, given that the caller passes absolute source and root
directories as find_broken_links does; for a target empty after trimming
or starting with the anchor character, it returns the empty list. -/
theorem c3_resolver_path_like_targets (src_dir target repo_docs_root : Line)
    (isdir : Line → Bool)
    (hsrc : src_dir.head? = some '/') (hroot : repo_docs_root.head? = some '/') :
    (pyStrip target ≠ [] → (pyStrip target).head? ≠ some '#' →
        resolve_candidate src_dir target repo_docs_root isdir ≠ []
        ∧ ∀ c ∈ resolve_candidate src_dir target repo_docs_root isdir,
            c.head? = some '/')
    ∧ ((pyStrip target = [] ∨ (pyStrip target).head? = some '#') →
        resolve_candidate src_dir target repo_docs_root isdir = []) := by
  constructor
  · intro h1 h2
    constructor
    · unfold resolve_candidate
      intro heq
      rw [dedupFirstSeen_eq_nil] at heq
      exact resolve_candidate_exts_ne_nil _
        (resolve_candidate_base_ne_nil _ _ _ _ h1 h2) heq
    · exact resolve_candidate_heads _ _ _ _ hsrc hroot
  · exact resolve_candidate_empty_cases _ _ _ _

/-- C3 witness at concrete inputs: a relative file target from an absolute
docs directory, and an anchor-only target. -/
theorem c3_resolver_path_like_targets_witness :
    (resolve_candidate "/r/docs".data "file".data "/r/docs".data (fun _ => false) ≠ []
      ∧ ∀ c ∈ resolve_candidate "/r/docs".data "file".data "/r/docs".data (fun _ => false),
          c.head? = some '/')
    ∧ resolve_candidate "/r/docs".data "#anchor".data "/r/docs".data (fun _ => false) = [] := by
  constructor
  · exact (c3_resolver_path_like_targets "/r/docs".data "file".data "/r/docs".data
      (fun _ => false) (by decide) (by decide)).1 (by decide) (by decide)
  · exact (c3_resolver_path_like_targets "/r/docs".data "#anchor".data "/r/docs".data
      (fun _ => false) (by decide) (by decide)).2 (by decide)

theorem find?_first_split (p : Line → Bool) :
    ∀ (l : List Line) (a : Line), l.find? p = some a →
      ∃ l₁ l₂, l = l₁ ++ a :: l₂ ∧ ∀ x ∈ l₁, p x = false := by
  intro l
  induction l with
  | nil => intro a h; cases h
  | cons b t ih =>
    intro a h
    by_cases hpb : p b = true
    · rw [List.find?_cons_of_pos _ hpb] at h
      injection h with h
      exact ⟨[], t, by rw [h]; rfl, by simp⟩
    · rw [List.find?_cons_of_neg _ (by simpa using hpb)] at h
      obtain ⟨l₁, l₂, heq, hall⟩ := ih a h
      refine ⟨b :: l₁, l₂, by rw [heq]; rfl, ?_⟩
      intro x hx
      rcases List.mem_cons.mp hx with rfl | hx'
      · simpa using hpb
      · exact hall x hx'

/-- C4: a link target is reported broken exactly when no candidate path
exists; the broken entry carries the first candidate as the reported
resolved path, or the raw target when the candidate list is empty; and
when a candidate exists the retained resolved path is the first existing
candidate and no broken entry is produced. -/
theorem c4_broken_iff_no_candidate_exists (pathExists isdir : Line → Bool)
    (dirpath target docs_root : Line) :
    ((∃ t p, linkResolve pathExists isdir dirpath target docs_root =
        LinkResult.broken t p) ↔
      ∀ c ∈ resolve_candidate dirpath target docs_root isdir, pathExists c = false)
    ∧ ((∀ c ∈ resolve_candidate dirpath target docs_root isdir, pathExists c = false) →
        linkResolve pathExists isdir dirpath target docs_root =
          LinkResult.broken target
            ((resolve_candidate dirpath target docs_root isdir).headD target))
    ∧ (∀ c, linkResolve pathExists isdir dirpath target docs_root = LinkResult.ok c →
        pathExists c = true
        ∧ ∃ l₁ l₂, resolve_candidate dirpath target docs_root isdir = l₁ ++ c :: l₂
            ∧ ∀ x ∈ l₁, pathExists x = false) := by
  refine ⟨⟨?_, ?_⟩, ?_, ?_⟩
  · rintro ⟨t, p, heq⟩ c hc
    cases hfind : (resolve_candidate dirpath target docs_root isdir).find? pathExists with
    | some b =>
      simp only [linkResolve, hfind] at heq
      cases heq
    | none =>
      have := List.find?_eq_none.mp hfind c hc
      simpa using this
  · intro hall
    cases hfind : (resolve_candidate dirpath target docs_root isdir).find? pathExists with
    | some b =>
      have hb := List.find?_some hfind
      have hmem := List.mem_of_find?_eq_some hfind
      rw [hall b hmem] at hb
      cases hb
    | none =>
      simp only [linkResolve, hfind]
      exact ⟨target, _, rfl⟩
  · intro hall
    cases hfind : (resolve_candidate dirpath target docs_root isdir).find? pathExists with
    | some b =>
      have hb := List.find?_some hfind
      have hmem := List.mem_of_find?_eq_some hfind
      rw [hall b hmem] at hb
      cases hb
    | none =>
      simp only [linkResolve, hfind]
  · intro c heq
    cases hfind : (resolve_candidate dirpath target docs_root isdir).find? pathExists with
    | some b =>
      simp only [linkResolve, hfind, LinkResult.ok.injEq] at heq
      subst heq
      exact ⟨List.find?_some hfind, find?_first_split _ _ _ hfind⟩
    | none =>
      simp only [linkResolve, hfind] at heq
      cases heq

/-- C4 witness at a concrete broken link and a concrete resolvable link. -/
theorem c4_broken_iff_no_candidate_exists_witness :
    linkResolve (fun _ => false) (fun _ => false) "/d".data "a.md".data "/d".data =
      LinkResult.broken "a.md".data "/d/a.md".data
    ∧ (linkResolve (fun q => decide (q = "/d/a.md".data)) (fun _ => false)
        "/d".data "a.md".data "/d".data = LinkResult.ok "/d/a.md".data →
      decide ( "/d/a.md".data = "/d/a.md".data) = true) := by
  constructor
  · have h := (c4_broken_iff_no_candidate_exists (fun _ => false) (fun _ => false)
      "/d".data "a.md".data "/d".data).2.1 (fun c _ => rfl)
    rw [show ((resolve_candidate "/d".data "a.md".data "/d".data
      (fun _ => false)).headD "a.md".data) = "/d/a.md".data from by decide] at h
    exact h
  · intro hok
    exact ((c4_broken_iff_no_candidate_exists (fun q => decide (q = "/d/a.md".data))
      (fun _ => false) "/d".data "a.md".data "/d".data).2.2 _ hok).1

theorem takeWhile_append_all (p : Char → Bool) :
    ∀ (l₁ l₂ : Line), (∀ x ∈ l₁, p x = true) →
      (l₁ ++ l₂).takeWhile p = l₁ ++ l₂.takeWhile p := by
  intro l₁
  induction l₁ with
  | nil => simp
  | cons a t ih =>
    intro l₂ hall
    rw [List.cons_append, List.takeWhile_cons_of_pos (hall a (List.mem_cons_self _ _))]
    rw [ih l₂ (fun x hx => hall x (List.mem_cons_of_mem _ hx))]
    rfl

theorem basename_posixJoin_readme (q : Line) (hq : q ≠ []) :
    ((posixJoin q "README.md".data).reverse.takeWhile (fun c => c ≠ '/')).reverse =
      "README.md".data := by
  unfold posixJoin
  rw [if_neg (by decide)]
  by_cases hc : q = [] ∨ q.getLast? = some '/'
  · rw [if_pos hc]
    rcases hc with h | h
    · exact absurd h hq
    · have hrev : q.reverse.head? = some '/' := by
        rw [List.head?_reverse]
        exact h
      have hqrev : q.reverse = '/' :: q.reverse.tail := by
        cases hq2 : q.reverse with
        | nil => rw [hq2] at hrev; simp at hrev
        | cons a t =>
          rw [hq2] at hrev
          simp only [List.head?_cons, Option.some.injEq] at hrev
          rw [hrev]
          rfl
      rw [List.reverse_append]
      rw [takeWhile_append_all _ _ _ (by decide)]
      rw [hqrev, List.takeWhile_cons_of_neg (by decide)]
      simp
  · rw [if_neg hc]
    have hassoc : q ++ '/' :: "README.md".data =
        (q ++ ['/']) ++ "README.md".data := by
      simp
    rw [hassoc, List.reverse_append]
    rw [takeWhile_append_all _ _ _ (by decide)]
    have hqs : (q ++ ['/']).reverse = '/' :: q.reverse := by simp
    rw [hqs, List.takeWhile_cons_of_neg (by decide)]
    simp

theorem splitextExt_posixJoin_readme (q : Line) (hq : q ≠ []) :
    splitextExt (posixJoin q "README.md".data) = ".md".data := by
  have hb := basename_posixJoin_readme q hq
  simp only [splitextExt]
  rw [hb]
  decide

theorem append_ne_of_suffix_ne (b s s' : Line) (h : s ≠ s') : b ++ s ≠ b ++ s' :=
  fun he => h (List.append_cancel_left he)

theorem ne_append_of_ne_nil (b s : Line) (h : s ≠ []) : b ≠ b ++ s := by
  intro he
  have hl := congrArg List.length he
  rw [List.length_append] at hl
  have hz : s.length = 0 := by omega
  exact h (List.length_eq_zero.mp hz)

theorem resolve_candidate_base_shape (src_dir target repo_docs_root : Line)
    (isdir : Line → Bool) :
    resolve_candidate_base src_dir target repo_docs_root isdir = []
    ∨ ∃ b, b ≠ [] ∧
        (resolve_candidate_base src_dir target repo_docs_root isdir = [b]
         ∨ resolve_candidate_base src_dir target repo_docs_root isdir =
             [b, posixJoin b "README.md".data]) := by
  simp only [resolve_candidate_base]
  by_cases h1 : pyStrip target = []
  · rw [if_pos h1]
    exact Or.inl rfl
  · rw [if_neg h1]
    by_cases h2 : (pyStrip target).head? = some '#'
    · rw [if_pos h2]
      exact Or.inl rfl
    · rw [if_neg h2]
      by_cases h3 : (normalize_target_path (pyStrip target)).head? = some '/'
      · rw [if_pos h3]
        refine Or.inr ⟨normpath (posixJoin (dirname repo_docs_root)
          ((normalize_target_path (pyStrip target)).dropWhile (fun c => c = '/'))),
          normpath_ne_nil _, ?_⟩
        by_cases hd : isdir (normpath (posixJoin (dirname repo_docs_root)
            ((normalize_target_path (pyStrip target)).dropWhile (fun c => c = '/')))) = true
        · refine Or.inr ?_
          rw [List.filterMap_cons, List.filterMap_nil]
          rw [if_pos hd]
          rfl
        · refine Or.inl ?_
          rw [List.filterMap_cons, List.filterMap_nil]
          rw [if_neg (by simpa using hd)]
          rfl
      · rw [if_neg h3]
        refine Or.inr ⟨normpath (posixJoin src_dir
          (normalize_target_path (pyStrip target))), normpath_ne_nil _, ?_⟩
        by_cases hd : isdir (normpath (posixJoin src_dir
            (normalize_target_path (pyStrip target)))) = true
        · refine Or.inr ?_
          rw [List.filterMap_cons, List.filterMap_nil]
          rw [if_pos hd]
          rfl
        · refine Or.inl ?_
          rw [List.filterMap_cons, List.filterMap_nil]
          rw [if_neg (by simpa using hd)]
          rfl

theorem dedup_block_order (b : Line) (tail pre : List Line)
    (hpre : pre = (b ++ ".md".data) :: (b ++ ".yaml".data) :: (b ++ ".json".data) ::
      b :: tail) :
    (b ++ ".md".data) ∈ dedupFirstSeen pre
    ∧ (b ++ ".yaml".data) ∈ dedupFirstSeen pre
    ∧ (b ++ ".json".data) ∈ dedupFirstSeen pre
    ∧ b ∈ dedupFirstSeen pre
    ∧ firstIdx (b ++ ".md".data) (dedupFirstSeen pre) <
        firstIdx (b ++ ".yaml".data) (dedupFirstSeen pre)
    ∧ firstIdx (b ++ ".yaml".data) (dedupFirstSeen pre) <
        firstIdx (b ++ ".json".data) (dedupFirstSeen pre)
    ∧ firstIdx (b ++ ".json".data) (dedupFirstSeen pre) <
        firstIdx b (dedupFirstSeen pre) := by
  subst hpre
  have hmy : b ++ ".md".data ≠ b ++ ".yaml".data :=
    append_ne_of_suffix_ne _ _ _ (by decide)
  have hmj : b ++ ".md".data ≠ b ++ ".json".data :=
    append_ne_of_suffix_ne _ _ _ (by decide)
  have hyj : b ++ ".yaml".data ≠ b ++ ".json".data :=
    append_ne_of_suffix_ne _ _ _ (by decide)
  have hbm : b ≠ b ++ ".md".data := ne_append_of_ne_nil _ _ (by decide)
  have hby : b ≠ b ++ ".yaml".data := ne_append_of_ne_nil _ _ (by decide)
  have hbj : b ≠ b ++ ".json".data := ne_append_of_ne_nil _ _ (by decide)
  have hm0 : firstIdx (b ++ ".md".data) ((b ++ ".md".data) :: (b ++ ".yaml".data) ::
      (b ++ ".json".data) :: b :: tail) = 0 := firstIdx_cons_self _ _
  have hy1 : firstIdx (b ++ ".yaml".data) ((b ++ ".md".data) :: (b ++ ".yaml".data) ::
      (b ++ ".json".data) :: b :: tail) = 1 := by
    rw [firstIdx_cons_ne _ _ _ hmy, firstIdx_cons_self]
  have hj2 : firstIdx (b ++ ".json".data) ((b ++ ".md".data) :: (b ++ ".yaml".data) ::
      (b ++ ".json".data) :: b :: tail) = 2 := by
    rw [firstIdx_cons_ne _ _ _ hmj, firstIdx_cons_ne _ _ _ hyj, firstIdx_cons_self]
  have hb3 : firstIdx b ((b ++ ".md".data) :: (b ++ ".yaml".data) ::
      (b ++ ".json".data) :: b :: tail) = 3 := by
    rw [firstIdx_cons_ne _ _ _ hbm.symm, firstIdx_cons_ne _ _ _ hby.symm,
      firstIdx_cons_ne _ _ _ hbj.symm, firstIdx_cons_self]
  have hmem_m : (b ++ ".md".data) ∈ (b ++ ".md".data) :: (b ++ ".yaml".data) ::
      (b ++ ".json".data) :: b :: tail := List.mem_cons_self _ _
  have hmem_y : (b ++ ".yaml".data) ∈ (b ++ ".md".data) :: (b ++ ".yaml".data) ::
      (b ++ ".json".data) :: b :: tail := by simp
  have hmem_j : (b ++ ".json".data) ∈ (b ++ ".md".data) :: (b ++ ".yaml".data) ::
      (b ++ ".json".data) :: b :: tail := by simp
  have hmem_b : b ∈ (b ++ ".md".data) :: (b ++ ".yaml".data) ::
      (b ++ ".json".data) :: b :: tail := by simp
  refine ⟨(mem_dedupFirstSeen _ _).mpr hmem_m, (mem_dedupFirstSeen _ _).mpr hmem_y,
    (mem_dedupFirstSeen _ _).mpr hmem_j, (mem_dedupFirstSeen _ _).mpr hmem_b, ?_, ?_, ?_⟩
  · exact firstIdx_dedup_lt _ _ _ hmem_m hmem_y (by omega)
  · exact firstIdx_dedup_lt _ _ _ hmem_y hmem_j (by omega)
  · exact firstIdx_dedup_lt _ _ _ hmem_j hmem_b (by omega)

/-- C5 (amended): for every candidate gathered by the resolver that has no
file extension, the final candidate list contains the extension variants in
the fixed order .md then .yaml then .json and also the extension-less form
itself, the three variants coming before it, not after; the final list is
deduplicated preserving first-seen order. -/
theorem c5_extension_variants_order (src_dir target repo_docs_root : Line)
    (isdir : Line → Bool) :
    (resolve_candidate src_dir target repo_docs_root isdir).Nodup
    ∧ ∀ c ∈ resolve_candidate_base src_dir target repo_docs_root isdir,
        splitextExt c = [] →
          (c ++ ".md".data) ∈ resolve_candidate src_dir target repo_docs_root isdir
          ∧ (c ++ ".yaml".data) ∈ resolve_candidate src_dir target repo_docs_root isdir
          ∧ (c ++ ".json".data) ∈ resolve_candidate src_dir target repo_docs_root isdir
          ∧ c ∈ resolve_candidate src_dir target repo_docs_root isdir
          ∧ firstIdx (c ++ ".md".data)
                (resolve_candidate src_dir target repo_docs_root isdir) <
              firstIdx (c ++ ".yaml".data)
                (resolve_candidate src_dir target repo_docs_root isdir)
          ∧ firstIdx (c ++ ".yaml".data)
                (resolve_candidate src_dir target repo_docs_root isdir) <
              firstIdx (c ++ ".json".data)
                (resolve_candidate src_dir target repo_docs_root isdir)
          ∧ firstIdx (c ++ ".json".data)
                (resolve_candidate src_dir target repo_docs_root isdir) <
              firstIdx c (resolve_candidate src_dir target repo_docs_root isdir) := by
  constructor
  · exact dedupFirstSeen_nodup _
  · intro c hc hext
    rcases resolve_candidate_base_shape src_dir target repo_docs_root isdir with
      hnil | ⟨b, hbne, hsh⟩
    · rw [hnil] at hc
      simp at hc
    · rcases hsh with hb1 | hb2
      · rw [hb1] at hc
        have hcb : c = b := List.mem_singleton.mp hc
        subst hcb
        have hpre : resolve_candidate_exts [c] = (c ++ ".md".data) ::
            (c ++ ".yaml".data) :: (c ++ ".json".data) :: c :: [] := by
          unfold resolve_candidate_exts
          rw [List.flatMap_cons, List.flatMap_nil, if_pos hext]
          rfl
        have hout : resolve_candidate src_dir target repo_docs_root isdir =
            dedupFirstSeen ((c ++ ".md".data) :: (c ++ ".yaml".data) ::
              (c ++ ".json".data) :: c :: []) := by
          unfold resolve_candidate
          rw [hb1, hpre]
        rw [hout]
        exact dedup_block_order c [] _ rfl
      · have hrext : splitextExt (posixJoin b "README.md".data) = ".md".data :=
          splitextExt_posixJoin_readme b hbne
        rw [hb2] at hc
        have hcb : c = b := by
          rcases List.mem_cons.mp hc with h | hc'
          · exact h
          · rw [List.mem_singleton.mp hc'] at hext
            rw [hrext] at hext
            cases hext
        subst hcb
        have hpre : resolve_candidate_exts [c, posixJoin c "README.md".data] =
            (c ++ ".md".data) :: (c ++ ".yaml".data) :: (c ++ ".json".data) ::
              c :: [posixJoin c "README.md".data] := by
          unfold resolve_candidate_exts
          rw [List.flatMap_cons, List.flatMap_cons, List.flatMap_nil, if_pos hext]
          rw [if_neg (by rw [hrext]; decide)]
          rfl
        have hout : resolve_candidate src_dir target repo_docs_root isdir =
            dedupFirstSeen ((c ++ ".md".data) :: (c ++ ".yaml".data) ::
              (c ++ ".json".data) :: c :: [posixJoin c "README.md".data]) := by
          unfold resolve_candidate
          rw [hb2, hpre]
        rw [hout]
        exact dedup_block_order c [posixJoin c "README.md".data] _ rfl

/-- C5 counterexample: at a concrete extension-less target, the resolver
places the three extension variants before the extension-less form, so the
variants are not appended after it as the claim states. -/
theorem c5_counterexample_variants_precede :
    resolve_candidate "/r/docs".data "file".data "/r/docs".data (fun _ => false) =
      [ "/r/docs/file.md".data, "/r/docs/file.yaml".data, "/r/docs/file.json".data,
        "/r/docs/file".data]
    ∧ splitextExt "/r/docs/file".data = []
    ∧ ¬ (firstIdx "/r/docs/file".data
          (resolve_candidate "/r/docs".data "file".data "/r/docs".data (fun _ => false)) <
        firstIdx "/r/docs/file.md".data
          (resolve_candidate "/r/docs".data "file".data "/r/docs".data (fun _ => false))) := by
  refine ⟨by decide, by decide, by decide⟩

/-- C5 witness at a concrete extension-less candidate. -/
theorem c5_extension_variants_order_witness :
    ( "/r/docs/file".data ++ ".md".data) ∈
      resolve_candidate "/r/docs".data "file".data "/r/docs".data (fun _ => false)
    ∧ firstIdx ( "/r/docs/file".data ++ ".json".data)
        (resolve_candidate "/r/docs".data "file".data "/r/docs".data (fun _ => false)) <
      firstIdx "/r/docs/file".data
        (resolve_candidate "/r/docs".data "file".data "/r/docs".data (fun _ => false)) := by
  have h := (c5_extension_variants_order "/r/docs".data "file".data "/r/docs".data
    (fun _ => false)).2 "/r/docs/file".data (by decide) (by decide)
  exact ⟨h.1, h.2.2.2.2.2.2⟩

theorem nil_isPrefixOf (l : Line) : ([] : Line).isPrefixOf l = true := by
  cases l with
  | nil => rfl
  | cons a t => rfl

theorem isPrefixOf_append (p : Line) :
    ∀ (l m : Line), p.isPrefixOf l = true → p.isPrefixOf (l ++ m) = true := by
  induction p with
  | nil => intro l m _; exact nil_isPrefixOf _
  | cons a p' ih =>
    intro l m h
    cases l with
    | nil => cases h
    | cons b l' =>
      simp only [List.cons_append, List.isPrefixOf, Bool.and_eq_true] at h ⊢
      exact ⟨h.1, ih l' m h.2⟩

theorem pyInStr_nil_pat : ∀ (m : Line), pyInStr [] m = true := by
  intro m
  cases m with
  | nil => rfl
  | cons c rest => rfl

theorem pyInStr_append_right (pat : Line) :
    ∀ (l m : Line), pyInStr pat l = true → pyInStr pat (l ++ m) = true := by
  intro l
  induction l with
  | nil =>
    intro m h
    cases pat with
    | nil => exact pyInStr_nil_pat m
    | cons a p' => cases h
  | cons c rest ih =>
    intro m h
    rw [List.cons_append]
    simp only [pyInStr, Bool.or_eq_true] at h ⊢
    rcases h with h | h
    · exact Or.inl (isPrefixOf_append _ _ _ h)
    · exact Or.inr (ih m h)

theorem pyInStr_uppercase_dirMsg (comp : Line) :
    pyInStr "uppercase".data (dirUppercaseMsg comp) = true := by
  unfold dirUppercaseMsg
  exact pyInStr_append_right _ _ _ (pyInStr_append_right _ _ _ (by decide))

theorem head?_dirUppercaseMsg (comp : Line) :
    (dirUppercaseMsg comp).head? = some 'd' := by
  unfold dirUppercaseMsg
  rw [head?_append_of_ne_nil _ _ (by
    intro h
    rcases List.append_eq_nil.mp h with ⟨h1, _⟩
    cases h1)]
  rw [head?_append_of_ne_nil _ _ (by decide)]
  decide

theorem head?_extLowercaseMsgMd (suffix : Line) :
    (extLowercaseMsgMd suffix).head? = some 'e' := by
  unfold extLowercaseMsgMd
  rw [head?_append_of_ne_nil _ _ (by
    intro h
    rcases List.append_eq_nil.mp h with ⟨h1, _⟩
    cases h1)]
  rw [head?_append_of_ne_nil _ _ (by decide)]
  decide

theorem spacesMsg_ne_dirMsg (comp : Line) : spacesMsg ≠ dirUppercaseMsg comp := by
  intro h
  have := head?_dirUppercaseMsg comp
  rw [← h] at this
  cases this

theorem spacesMsg_ne_extMsg (suffix : Line) : spacesMsg ≠ extLowercaseMsgMd suffix := by
  intro h
  have := head?_extLowercaseMsgMd suffix
  rw [← h] at this
  cases this

theorem hyphenMsg_ne_dirMsg (comp : Line) : hyphenMsg ≠ dirUppercaseMsg comp := by
  intro h
  have := head?_dirUppercaseMsg comp
  rw [← h] at this
  cases this

theorem hyphenMsg_ne_extMsg (suffix : Line) : hyphenMsg ≠ extLowercaseMsgMd suffix := by
  intro h
  have := head?_extLowercaseMsgMd suffix
  rw [← h] at this
  cases this

theorem upperLettersMsg_ne_dirMsg (comp : Line) :
    upperLettersMsg ≠ dirUppercaseMsg comp := by
  intro h
  have := head?_dirUppercaseMsg comp
  rw [← h] at this
  cases this

theorem upperLettersMsg_ne_extMsg (suffix : Line) :
    upperLettersMsg ≠ extLowercaseMsgMd suffix := by
  intro h
  have := head?_extLowercaseMsgMd suffix
  rw [← h] at this
  cases this

theorem genericMsg_ne_dirMsg (comp : Line) : genericMsg ≠ dirUppercaseMsg comp := by
  intro h
  have := head?_dirUppercaseMsg comp
  rw [← h] at this
  cases this

theorem genericMsg_ne_extMsg (suffix : Line) : genericMsg ≠ extLowercaseMsgMd suffix := by
  intro h
  have := head?_extLowercaseMsgMd suffix
  rw [← h] at this
  cases this

theorem pyToLower_eq_self (c : Char) (h : pyIsUpper c = false) : pyToLower c = c := by
  unfold pyToLower
  rw [if_neg]
  intro hcond
  unfold pyIsUpper at h
  rw [hcond] at h
  cases h

theorem map_id_of_mem (f : Char → Char) :
    ∀ (l : Line), (∀ x ∈ l, f x = x) → l.map f = l := by
  intro l
  induction l with
  | nil => intro _; rfl
  | cons a t ih =>
    intro h
    rw [List.map_cons, h a (List.mem_cons_self _ _),
      ih (fun x hx => h x (List.mem_cons_of_mem _ hx))]

theorem pathSuffix_subset (name : Line) : ∀ x ∈ pathSuffix name, x ∈ name := by
  intro x hx
  unfold pathSuffix at hx
  by_cases h1 : (name.reverse.takeWhile (fun c => c ≠ '.')).length = name.length
  · rw [if_pos h1] at hx
    cases hx
  · rw [if_neg h1] at hx
    by_cases h2 : 0 < name.length - (name.reverse.takeWhile (fun c => c ≠ '.')).length - 1
        ∧ name.length - (name.reverse.takeWhile (fun c => c ≠ '.')).length - 1 <
          name.length - 1
    · rw [if_pos h2] at hx
      exact List.drop_subset _ _ hx
    · rw [if_neg h2] at hx
      cases hx

theorem mem_ite_singleton (m x : Line) (c : Prop) [Decidable c]
    (h : m ∈ (if c then [x] else [])) : m = x ∧ c := by
  split at h
  · exact ⟨List.mem_singleton.mp h, by assumption⟩
  · cases h

theorem not_mem_dirMsgs (m : Line) (hm : ∀ comp, m ≠ dirUppercaseMsg comp)
    (dirs : List Line) (f : Line → Bool) :
    m ∉ (dirs.filter f).map dirUppercaseMsg := by
  intro h
  obtain ⟨comp, _, heq⟩ := List.mem_map.mp h
  exact hm comp heq.symm

/-- C6 (amended): when the markdown basename check fails, the presence of
spaces, hyphens and uppercase letters in the basename are each reported as
their own message; the generic lowercase-with-underscores message is
emitted exactly when none of those three causes applies to the basename
and additionally no directory component contains uppercase characters,
because the directory-case message contains the word uppercase and so
suppresses the generic message. -/
theorem c6_generic_message_condition (dirs : List Line) (name : Line)
    (hmd : (pathSuffix name).map pyToLower = ".md".data)
    (hnr : name ≠ "README.md".data)
    (hfail : MD_BASENAME_matches name = false) :
    (spacesMsg ∈ analyze_file (dirs ++ [name]) ↔ name.contains ' ' = true)
    ∧ (hyphenMsg ∈ analyze_file (dirs ++ [name]) ↔ name.contains '-' = true)
    ∧ (upperLettersMsg ∈ analyze_file (dirs ++ [name]) ↔ name.any pyIsUpper = true)
    ∧ (genericMsg ∈ analyze_file (dirs ++ [name]) ↔
        (name.contains ' ' = false ∧ name.contains '-' = false
          ∧ name.any pyIsUpper = false
          ∧ ∀ comp ∈ dirs, check_path_component_case comp = false)) := by
  have hdrop : (dirs ++ [name]).dropLast = dirs := by simp
  have hlast : (dirs ++ [name]).getLastD [] = name := by simp
  have hshape : analyze_file (dirs ++ [name]) =
      (if (((((dirs.filter (fun comp => check_path_component_case comp)).map dirUppercaseMsg
          ++ (if pathSuffix name ≠ ".md".data then [extLowercaseMsgMd (pathSuffix name)] else []))
          ++ (if name.contains ' ' = true then [spacesMsg] else []))
          ++ (if name.contains '-' = true then [hyphenMsg] else []))
          ++ (if name.any pyIsUpper = true then [upperLettersMsg] else [])).any
            (fun msg => pyInStr "spaces".data msg || pyInStr "hyphen".data msg ||
              pyInStr "uppercase".data msg) = true
        then (((((dirs.filter (fun comp => check_path_component_case comp)).map dirUppercaseMsg
          ++ (if pathSuffix name ≠ ".md".data then [extLowercaseMsgMd (pathSuffix name)] else []))
          ++ (if name.contains ' ' = true then [spacesMsg] else []))
          ++ (if name.contains '-' = true then [hyphenMsg] else []))
          ++ (if name.any pyIsUpper = true then [upperLettersMsg] else []))
        else (((((dirs.filter (fun comp => check_path_component_case comp)).map dirUppercaseMsg
          ++ (if pathSuffix name ≠ ".md".data then [extLowercaseMsgMd (pathSuffix name)] else []))
          ++ (if name.contains ' ' = true then [spacesMsg] else []))
          ++ (if name.contains '-' = true then [hyphenMsg] else []))
          ++ (if name.any pyIsUpper = true then [upperLettersMsg] else []))
          ++ [genericMsg]) := by
    simp only [analyze_file, hdrop, hlast, hmd, hfail]
    rw [if_pos trivial, if_neg hnr]
    simp only [Bool.false_eq_true, if_false]
  rw [hshape]
  set D := (dirs.filter (fun comp => check_path_component_case comp)).map dirUppercaseMsg
    with hD
  set E := (if pathSuffix name ≠ ".md".data then [extLowercaseMsgMd (pathSuffix name)] else [])
    with hE
  set S := (if name.contains ' ' = true then [spacesMsg] else []) with hS
  set B := (if name.contains '-' = true then [hyphenMsg] else []) with hB
  set U := (if name.any pyIsUpper = true then [upperLettersMsg] else []) with hU
  set A := (((D ++ E) ++ S) ++ B) ++ U with hA
  have hdecomp : ∀ m : Line, m ∈ A → m ∈ D ∨ m ∈ E ∨ m ∈ S ∨ m ∈ B ∨ m ∈ U := by
    intro m hm
    rw [hA] at hm
    rcases List.mem_append.mp hm with hm | hm
    · rcases List.mem_append.mp hm with hm | hm
      · rcases List.mem_append.mp hm with hm | hm
        · rcases List.mem_append.mp hm with hm | hm
          · exact Or.inl hm
          · exact Or.inr (Or.inl hm)
        · exact Or.inr (Or.inr (Or.inl hm))
      · exact Or.inr (Or.inr (Or.inr (Or.inl hm)))
    · exact Or.inr (Or.inr (Or.inr (Or.inr hm)))
  have hincS : ∀ m : Line, m ∈ S → m ∈ A := by
    intro m hm
    rw [hA]
    exact List.mem_append_left _ (List.mem_append_left _ (List.mem_append_right _ hm))
  have hincB : ∀ m : Line, m ∈ B → m ∈ A := by
    intro m hm
    rw [hA]
    exact List.mem_append_left _ (List.mem_append_right _ hm)
  have hincU : ∀ m : Line, m ∈ U → m ∈ A := by
    intro m hm
    rw [hA]
    exact List.mem_append_right _ hm
  have hincD : ∀ m : Line, m ∈ D → m ∈ A := by
    intro m hm
    rw [hA]
    exact List.mem_append_left _ (List.mem_append_left _ (List.mem_append_left _
      (List.mem_append_left _ hm)))
  have hmemA_result : ∀ m : Line, m ∈ A →
      m ∈ (if A.any (fun msg => pyInStr "spaces".data msg || pyInStr "hyphen".data msg ||
        pyInStr "uppercase".data msg) = true then A else A ++ [genericMsg]) := by
    intro m hm
    split
    · exact hm
    · exact List.mem_append_left _ hm
  have hres_mem : ∀ m : Line, m ≠ genericMsg →
      m ∈ (if A.any (fun msg => pyInStr "spaces".data msg || pyInStr "hyphen".data msg ||
        pyInStr "uppercase".data msg) = true then A else A ++ [genericMsg]) → m ∈ A := by
    intro m hne hm
    split at hm
    · exact hm
    · rcases List.mem_append.mp hm with hm | hm
      · exact hm
      · exact absurd (List.mem_singleton.mp hm) hne
  have hspaces_decomp : ∀ hm : spacesMsg ∈ A, name.contains ' ' = true := by
    intro hm
    rcases hdecomp _ hm with h | h | h | h | h
    · exact absurd h (not_mem_dirMsgs _ spacesMsg_ne_dirMsg _ _)
    · exact absurd (mem_ite_singleton _ _ _ h).1 (spacesMsg_ne_extMsg _)
    · exact (mem_ite_singleton _ _ _ h).2
    · exact absurd (mem_ite_singleton _ _ _ h).1 (by decide)
    · exact absurd (mem_ite_singleton _ _ _ h).1 (by decide)
  have hhyphen_decomp : ∀ hm : hyphenMsg ∈ A, name.contains '-' = true := by
    intro hm
    rcases hdecomp _ hm with h | h | h | h | h
    · exact absurd h (not_mem_dirMsgs _ hyphenMsg_ne_dirMsg _ _)
    · exact absurd (mem_ite_singleton _ _ _ h).1 (hyphenMsg_ne_extMsg _)
    · exact absurd (mem_ite_singleton _ _ _ h).1 (by decide)
    · exact (mem_ite_singleton _ _ _ h).2
    · exact absurd (mem_ite_singleton _ _ _ h).1 (by decide)
  have hupper_decomp : ∀ hm : upperLettersMsg ∈ A, name.any pyIsUpper = true := by
    intro hm
    rcases hdecomp _ hm with h | h | h | h | h
    · exact absurd h (not_mem_dirMsgs _ upperLettersMsg_ne_dirMsg _ _)
    · exact absurd (mem_ite_singleton _ _ _ h).1 (upperLettersMsg_ne_extMsg _)
    · exact absurd (mem_ite_singleton _ _ _ h).1 (by decide)
    · exact absurd (mem_ite_singleton _ _ _ h).1 (by decide)
    · exact (mem_ite_singleton _ _ _ h).2
  refine ⟨⟨?_, ?_⟩, ⟨?_, ?_⟩, ⟨?_, ?_⟩, ⟨?_, ?_⟩⟩
  · intro hm
    exact hspaces_decomp (hres_mem _ (by decide) hm)
  · intro hcont
    refine hmemA_result _ (hincS _ ?_)
    rw [hS, if_pos hcont]
    exact List.mem_singleton.mpr rfl
  · intro hm
    exact hhyphen_decomp (hres_mem _ (by decide) hm)
  · intro hcont
    refine hmemA_result _ (hincB _ ?_)
    rw [hB, if_pos hcont]
    exact List.mem_singleton.mpr rfl
  · intro hm
    exact hupper_decomp (hres_mem _ (by decide) hm)
  · intro hcont
    refine hmemA_result _ (hincU _ ?_)
    rw [hU, if_pos hcont]
    exact List.mem_singleton.mpr rfl
  · intro hm
    split at hm
    · rename_i hguard
      exfalso
      rcases hdecomp _ hm with h | h | h | h | h
      · exact absurd h (not_mem_dirMsgs _ genericMsg_ne_dirMsg _ _)
      · exact absurd (mem_ite_singleton _ _ _ h).1 (genericMsg_ne_extMsg _)
      · exact absurd (mem_ite_singleton _ _ _ h).1 (by decide)
      · exact absurd (mem_ite_singleton _ _ _ h).1 (by decide)
      · exact absurd (mem_ite_singleton _ _ _ h).1 (by decide)
    · rename_i hguard
      have hall : ∀ m ∈ A, ¬ ((fun msg => pyInStr "spaces".data msg ||
          pyInStr "hyphen".data msg || pyInStr "uppercase".data msg) m = true) := by
        rw [← List.any_eq_false]
        exact Bool.not_eq_true _ ▸ (Bool.eq_false_iff.mpr hguard)
      refine ⟨?_, ?_, ?_, ?_⟩
      · by_cases hc : name.contains ' ' = true
        · exfalso
          refine hall spacesMsg (hincS _ (by rw [hS, if_pos hc]; exact List.mem_singleton.mpr rfl)) ?_
          decide
        · exact Bool.eq_false_iff.mpr hc
      · by_cases hc : name.contains '-' = true
        · exfalso
          refine hall hyphenMsg (hincB _ (by rw [hB, if_pos hc]; exact List.mem_singleton.mpr rfl)) ?_
          decide
        · exact Bool.eq_false_iff.mpr hc
      · by_cases hc : name.any pyIsUpper = true
        · exfalso
          refine hall upperLettersMsg (hincU _ (by rw [hU, if_pos hc]; exact List.mem_singleton.mpr rfl)) ?_
          decide
        · exact Bool.eq_false_iff.mpr hc
      · intro comp hcomp
        by_cases hc : check_path_component_case comp = true
        · exfalso
          have hmemD : dirUppercaseMsg comp ∈ D := by
            rw [hD]
            exact List.mem_map_of_mem _ (List.mem_filter.mpr ⟨hcomp, hc⟩)
          refine hall (dirUppercaseMsg comp) (hincD _ hmemD) ?_
          simp only [pyInStr_uppercase_dirMsg comp, Bool.or_true]
        · exact Bool.eq_false_iff.mpr hc
  · rintro ⟨hsp, hhy, hup, hdirs⟩
    have hDnil : D = [] := by
      rw [hD]
      have : dirs.filter (fun comp => check_path_component_case comp) = [] := by
        rw [List.filter_eq_nil_iff]
        intro a ha
        rw [hdirs a ha]
        simp
      rw [this]
      rfl
    have hsuffix : pathSuffix name = ".md".data := by
      have hnoup : ∀ x ∈ pathSuffix name, pyIsUpper x = false := by
        intro x hx
        have hxname := pathSuffix_subset name x hx
        have := List.any_eq_false.mp hup x hxname
        exact Bool.eq_false_iff.mpr this
      have hid : (pathSuffix name).map pyToLower = pathSuffix name :=
        map_id_of_mem _ _ (fun x hx => pyToLower_eq_self x (hnoup x hx))
      rw [← hid]
      exact hmd
    have hEnil : E = [] := by
      rw [hE, if_neg]
      intro hne
      exact hne hsuffix
    have hSnil : S = [] := by
      rw [hS, if_neg]
      rw [hsp]
      exact Bool.false_ne_true
    have hBnil : B = [] := by
      rw [hB, if_neg]
      rw [hhy]
      exact Bool.false_ne_true
    have hUnil : U = [] := by
      rw [hU, if_neg]
      rw [hup]
      exact Bool.false_ne_true
    have hAnil : A = [] := by
      rw [hA, hDnil, hEnil, hSnil, hBnil, hUnil]
      rfl
    rw [hAnil]
    simp

/-- C6 counterexample: for the relative path with directory Sub and
basename a.b.md, the basename fails the pattern while none of the three
specific causes applies to it, yet the generic message is not emitted: the
directory-case message recorded for Sub contains the word uppercase and
suppresses it, refuting the claimed equivalence. -/
theorem c6_counterexample_dir_suppresses_generic :
    MD_BASENAME_matches "a.b.md".data = false
    ∧ "a.b.md".data.contains ' ' = false
    ∧ "a.b.md".data.contains '-' = false
    ∧ "a.b.md".data.any pyIsUpper = false
    ∧ genericMsg ∉ analyze_file [ "Sub".data, "a.b.md".data]
    ∧ analyze_file [ "Sub".data, "a.b.md".data] = [dirUppercaseMsg "Sub".data] := by
  refine ⟨by decide, by decide, by decide, by decide, by decide, by decide⟩

/-- C6 witness at a concrete path with a lowercase directory. -/
theorem c6_generic_message_condition_witness :
    (spacesMsg ∈ analyze_file ([ "sub".data] ++ [ "a.b.md".data]) ↔
      "a.b.md".data.contains ' ' = true)
    ∧ (hyphenMsg ∈ analyze_file ([ "sub".data] ++ [ "a.b.md".data]) ↔
      "a.b.md".data.contains '-' = true)
    ∧ (upperLettersMsg ∈ analyze_file ([ "sub".data] ++ [ "a.b.md".data]) ↔
      "a.b.md".data.any pyIsUpper = true)
    ∧ (genericMsg ∈ analyze_file ([ "sub".data] ++ [ "a.b.md".data]) ↔
        ( "a.b.md".data.contains ' ' = false ∧ "a.b.md".data.contains '-' = false
          ∧ "a.b.md".data.any pyIsUpper = false
          ∧ ∀ comp ∈ [ "sub".data], check_path_component_case comp = false)) :=
  c6_generic_message_condition [ "sub".data] "a.b.md".data
    (by decide) (by decide) (by decide)

/-- C7 counterexample: the basename readme.md matches the lowercase
pattern of MD_BASENAME_RE, so the validator reports no violation for it,
refuting the claim that it produces at least one violation. -/
theorem c7_counterexample_readme_lowercase :
    analyze_file [ "readme.md".data] = [] := by
  decide

/-- C7 (amended): README.md in exact case under directories without
uppercase characters never fails the validator, and neither does
readme.md, whose basename matches the lowercase pattern; README.MD,
My-Doc.md, my doc.md and notes.yml each produce at least one violation,
with pairwise distinct violation lists, so each has a distinguishable
reason. -/
theorem c7_naming_examples (dirs : List Line)
    (hdirs : ∀ comp ∈ dirs, check_path_component_case comp = false) :
    analyze_file (dirs ++ [ "README.md".data]) = []
    ∧ analyze_file [ "readme.md".data] = []
    ∧ analyze_file [ "README.MD".data] ≠ []
    ∧ analyze_file [ "My-Doc.md".data] ≠ []
    ∧ analyze_file [ "my doc.md".data] ≠ []
    ∧ analyze_file [ "notes.yml".data] ≠ []
    ∧ analyze_file [ "README.MD".data] ≠ analyze_file [ "My-Doc.md".data]
    ∧ analyze_file [ "README.MD".data] ≠ analyze_file [ "my doc.md".data]
    ∧ analyze_file [ "README.MD".data] ≠ analyze_file [ "notes.yml".data]
    ∧ analyze_file [ "My-Doc.md".data] ≠ analyze_file [ "my doc.md".data]
    ∧ analyze_file [ "My-Doc.md".data] ≠ analyze_file [ "notes.yml".data]
    ∧ analyze_file [ "my doc.md".data] ≠ analyze_file [ "notes.yml".data] := by
  refine ⟨?_, by decide, by decide, by decide, by decide, by decide,
    by decide, by decide, by decide, by decide, by decide, by decide⟩
  have hdrop : (dirs ++ [ "README.md".data]).dropLast = dirs := by simp
  have hlast : (dirs ++ [ "README.md".data]).getLastD [] = "README.md".data := by simp
  have hD : dirs.filter (fun comp => check_path_component_case comp) = [] := by
    rw [List.filter_eq_nil_iff]
    intro a ha
    rw [hdirs a ha]
    simp
  simp only [analyze_file, hdrop, hlast, hD]
  decide

/-- C7 witness with a concrete lowercase directory. -/
theorem c7_naming_examples_witness :
    analyze_file ([ "docs".data] ++ [ "README.md".data]) = []
    ∧ analyze_file [ "readme.md".data] = [] := by
  have h := c7_naming_examples [ "docs".data] (by decide)
  exact ⟨h.1, h.2.1⟩
